import Mathlib

/-
Verification of the domain-ranking ingestion pipeline.

The embedding models the repository's Python code:
  * `process_csv_data`, `load_domains_history`, `save_domains_history`,
    `process_commit_chunk` from `import_historical_data_chunked.py`;
  * `calculate_change` and the date-fallback part of `calculate_rank_changes`
    from `rank_change_analyzer.py`;
  * the pure core of `update_database` from `your_script_name.py`.

Modeling conventions:
  * domain names are strings; calendar dates are naturals (the code compares
    ISO `YYYY-MM-DD` date strings, whose lexicographic order coincides with
    the chronological order that naturals model); ranks are integers, as
    produced by Python `int`;
  * a Python `dict` is an association list in insertion order: assignment
    updates the first matching key in place and appends a fresh key at the
    end, exactly as CPython preserves insertion order.
-/

namespace DomainRank

abbrev Hist := List (Nat × Int)

abbrev Rankings := List (String × Hist)

abbrev FirstSeen := List (String × Nat)

/-- Lookup in a Python-dict association list (first matching key). -/
def alookup {α β : Type} [DecidableEq α] : List (α × β) → α → Option β
  | [], _ => none
  | (k, v) :: rest, a => if k = a then some v else alookup rest a

/-- Python dict assignment `d[a] = b`: update the first matching key in
place, append a fresh key at the end. -/
def aset {α β : Type} [DecidableEq α] : List (α × β) → α → β → List (α × β)
  | [], a, b => [(a, b)]
  | (k, v) :: rest, a, b => if k = a then (k, b) :: rest else (k, v) :: aset rest a b

/-- Python membership test `a in d` for a dict. -/
def amem {α β : Type} [DecidableEq α] (l : List (α × β)) (a : α) : Bool :=
  (alookup l a).isSome

theorem alookup_aset {α β : Type} [DecidableEq α] (l : List (α × β)) (k : α) (v : β) (a : α) :
    alookup (aset l k v) a = if k = a then some v else alookup l a := by
  induction l with
  | nil => simp [aset, alookup]
  | cons p rest ih =>
    obtain ⟨k', v'⟩ := p
    by_cases hk : k' = k
    · subst hk
      by_cases ha : k' = a <;> simp [aset, alookup, ha]
    · simp only [aset, if_neg hk, alookup]
      by_cases ha : k' = a
      · subst ha
        have : ¬ k = k' := fun h => hk h.symm
        simp [this, alookup]
      · simp [ha, ih]

theorem aset_aset {α β : Type} [DecidableEq α] (l : List (α × β)) (k : α) (v w : β) :
    aset (aset l k v) k w = aset l k w := by
  induction l with
  | nil => simp [aset]
  | cons p rest ih =>
    obtain ⟨k', v'⟩ := p
    by_cases hk : k' = k
    · subst hk
      simp [aset]
    · simp [aset, hk, ih]

theorem alookup_mem {α β : Type} [DecidableEq α] {l : List (α × β)} {a : α} {b : β}
    (h : alookup l a = some b) : (a, b) ∈ l := by
  induction l with
  | nil => simp [alookup] at h
  | cons p rest ih =>
    obtain ⟨k, v⟩ := p
    by_cases hk : k = a
    · subst hk
      simp [alookup] at h
      simp [h]
    · simp only [alookup, if_neg hk] at h
      exact List.mem_cons_of_mem _ (ih h)

theorem amem_eq_true_iff {α β : Type} [DecidableEq α] (l : List (α × β)) (a : α) :
    amem l a = true ↔ ∃ b, alookup l a = some b := by
  simp [amem, Option.isSome_iff_exists]

/-- In-memory store of the importer: the pair of dicts `domains_rankings`
(domain → {date → rank}) and `domains_first_seen` (domain → date). -/
structure Store where
  rankings : Rankings
  firstSeen : FirstSeen
deriving DecidableEq, Repr

def emptyStore : Store := ⟨[], []⟩

/-- Python `str.strip()`: drop leading and trailing whitespace. -/
def pyStrip (s : String) : String :=
  ⟨((s.data.dropWhile Char.isWhitespace).reverse.dropWhile Char.isWhitespace).reverse⟩

/-- Python `str.isdigit()` (restricted to ASCII digits, which is all the
data contains). -/
def pyIsDigit (s : String) : Bool := !s.data.isEmpty && s.data.all Char.isDigit

/-- Value of a run of decimal digits, `none` when empty or non-digit. -/
def parseNat (l : List Char) : Option Nat :=
  if l.isEmpty then none
  else if l.all Char.isDigit then
    some (l.foldl (fun acc c => acc * 10 + (c.toNat - 48)) 0)
  else none

/-- Python `int()` applied to an already-stripped string: an optional sign
followed by decimal digits (digit-group underscores and non-ASCII digits,
which the data never contains, are not modeled). -/
def pyToInt (s : String) : Option Int :=
  match s.data with
  | '-' :: rest => (parseNat rest).map (fun n => -(n : Int))
  | '+' :: rest => (parseNat rest).map (fun n => (n : Int))
  | l => (parseNat l).map (fun n => (n : Int))

/-- Row parsing inside the row loop of `process_csv_data`
(`import_historical_data_chunked.py` lines 156-159): rows with fewer than two
fields are skipped, `rank = int(row[0].strip())` (a failing `int` skips the
row with a warning), `domain = row[1].strip()`. -/
def parseRow (row : List String) : Option (Int × String) :=
  match row with
  | r0 :: r1 :: _ =>
    match pyToInt (pyStrip r0) with
    | some rank => some (rank, pyStrip r1)
    | none => none
  | _ => none

/-- Header handling of `process_csv_data` (lines 145-149): the first row is
dropped exactly when it is non-empty and its first field is not all digits. -/
def pyData : List (List String) → List (List String)
  | [] => []
  | first :: rest =>
    if first ≠ [] ∧ pyIsDigit (first.headD "") = false then rest else first :: rest

/-- The set `current_domains` built by the row loop: domains of the rows
whose rank parsed successfully (membership is all that is ever used). -/
def currentDomains (data : List (List String)) : List String :=
  data.filterMap (fun row => (parseRow row).map (·.2))

/-- One iteration of the row loop of `process_csv_data` (lines 155-171):
`domains_rankings[domain][date] = rank` (creating the inner dict if absent)
and the `first_seen` lowering update. -/
def rowStep (date : Nat) (st : Store) (row : List String) : Store :=
  match parseRow row with
  | none => st
  | some (rank, domain) =>
    { rankings := aset st.rankings domain (aset ((alookup st.rankings domain).getD []) date rank),
      firstSeen :=
        match alookup st.firstSeen domain with
        | none => aset st.firstSeen domain date
        | some d0 => if date < d0 then aset st.firstSeen domain date else st.firstSeen }

/-- One entry of the absent-domain pass of `process_csv_data` (lines
173-176): a pre-existing domain that is not in `current_domains` and has no
cell for `date` yet gets the sentinel cell `rank = 0`. -/
def fillEntry (date : Nat) (cur : List String) (p : String × Hist) : String × Hist :=
  if cur.contains p.1 = false ∧ amem p.2 date = false then (p.1, aset p.2 date 0) else p

/-- The absent-domain pass over the whole `domains_rankings` dict. -/
def fillAbsent (date : Nat) (cur : List String) (r : Rankings) : Rankings :=
  r.map (fillEntry date cur)

/-- The merge `process_csv_data(reader, date, domains_rankings,
domains_first_seen)` of `import_historical_data_chunked.py` (lines 141-181).
An empty reader leaves the store untouched: `next(reader, None)` yields
`None`, the row loop then raises `TypeError` on `len(None)` before any
update, and the outer `except` returns with no mutation. -/
def process_csv_data (rows : List (List String)) (date : Nat) (st : Store) : Store :=
  match rows with
  | [] => st
  | _ :: _ =>
    let data := pyData rows
    let cur := currentDomains data
    let st1 := data.foldl (rowStep date) st
    { rankings := fillAbsent date cur st1.rankings, firstSeen := st1.firstSeen }

/-- Rank of the last row of `data` that parses to domain `dom` (Python dict
assignment in the row loop lets the last duplicate win). -/
def lastRank : List (List String) → String → Option Int
  | [], _ => none
  | row :: rest, dom =>
    match lastRank rest dom with
    | some r => some r
    | none =>
      match parseRow row with
      | some (r, d) => if d = dom then some r else none
      | none => none

theorem rowStep_none (date : Nat) (st : Store) (row : List String)
    (h : parseRow row = none) : rowStep date st row = st := by
  simp [rowStep, h]

theorem rowStep_rank_lookup (date : Nat) (st : Store) (row : List String)
    (rank : Int) (d : String) (h : parseRow row = some (rank, d)) (dom : String) :
    alookup (rowStep date st row).rankings dom =
      if d = dom then some (aset ((alookup st.rankings dom).getD []) date rank)
      else alookup st.rankings dom := by
  simp only [rowStep, h, alookup_aset]
  by_cases hd : d = dom <;> simp [hd]

theorem rowStep_fs_lookup (date : Nat) (st : Store) (row : List String)
    (rank : Int) (d : String) (h : parseRow row = some (rank, d)) (dom : String) :
    alookup (rowStep date st row).firstSeen dom =
      if d = dom then
        some (match alookup st.firstSeen dom with
              | none => date
              | some d0 => min date d0)
      else alookup st.firstSeen dom := by
  simp only [rowStep, h]
  by_cases hd : d = dom
  · subst hd
    cases h0 : alookup st.firstSeen d with
    | none => simp [alookup_aset, h0]
    | some d0 =>
      by_cases hlt : date < d0
      · simp [h0, hlt, alookup_aset, Nat.min_eq_left (Nat.le_of_lt hlt)]
      · simp [h0, hlt, alookup_aset, Nat.min_eq_right (Nat.le_of_not_lt hlt)]
  · cases h0 : alookup st.firstSeen d with
    | none => simp [alookup_aset, hd]
    | some d0 =>
      by_cases hlt : date < d0 <;> simp [h0, hlt, alookup_aset, hd]

theorem currentDomains_cons_some {row : List String} {p : Int × String}
    (hp : parseRow row = some p) (rest : List (List String)) :
    currentDomains (row :: rest) = p.2 :: currentDomains rest := by
  simp [currentDomains, List.filterMap_cons, hp]

theorem currentDomains_cons_none {row : List String} (hp : parseRow row = none)
    (rest : List (List String)) :
    currentDomains (row :: rest) = currentDomains rest := by
  simp [currentDomains, List.filterMap_cons, hp]

theorem lastRank_cons_of_rest {rest : List (List String)} {dom : String} {r : Int}
    (hlr : lastRank rest dom = some r) (row : List String) :
    lastRank (row :: rest) dom = some r := by
  simp [lastRank, hlr]

theorem lastRank_cons_of_row {rest : List (List String)} {dom : String}
    {row : List String} {rk : Int} {d : String}
    (hlr : lastRank rest dom = none) (hp : parseRow row = some (rk, d)) :
    lastRank (row :: rest) dom = if d = dom then some rk else none := by
  simp [lastRank, hlr, hp]

theorem lastRank_cons_of_none {rest : List (List String)} {dom : String}
    {row : List String}
    (hlr : lastRank rest dom = none) (hp : parseRow row = none) :
    lastRank (row :: rest) dom = none := by
  simp [lastRank, hlr, hp]

theorem fold_rank_lookup (date : Nat) (data : List (List String)) (st : Store) (dom : String) :
    alookup (data.foldl (rowStep date) st).rankings dom =
      match lastRank data dom with
      | some r => some (aset ((alookup st.rankings dom).getD []) date r)
      | none => alookup st.rankings dom := by
  induction data generalizing st with
  | nil => simp [lastRank]
  | cons row rest ih =>
    simp only [List.foldl_cons]
    rw [ih]
    cases hlr : lastRank rest dom with
    | some r' =>
      cases hp : parseRow row with
      | none => simp [lastRank, hlr, hp, rowStep_none date st row hp]
      | some p =>
        obtain ⟨rk, d⟩ := p
        rw [rowStep_rank_lookup date st row rk d hp dom]
        by_cases hd : d = dom
        · simp [lastRank, hlr, hp, hd, aset_aset]
        · simp [lastRank, hlr, hp, hd]
    | none =>
      cases hp : parseRow row with
      | none => simp [lastRank, hlr, hp, rowStep_none date st row hp]
      | some p =>
        obtain ⟨rk, d⟩ := p
        rw [rowStep_rank_lookup date st row rk d hp dom]
        by_cases hd : d = dom
        · simp [lastRank, hlr, hp, hd]
        · simp [lastRank, hlr, hp, hd]

theorem fold_fs_lookup (date : Nat) (data : List (List String)) (st : Store) (dom : String) :
    alookup (data.foldl (rowStep date) st).firstSeen dom =
      if (currentDomains data).contains dom then
        some (match alookup st.firstSeen dom with
              | none => date
              | some d0 => min date d0)
      else alookup st.firstSeen dom := by
  induction data generalizing st with
  | nil => simp [currentDomains]
  | cons row rest ih =>
    simp only [List.foldl_cons]
    rw [ih]
    cases hp : parseRow row with
    | none =>
      rw [rowStep_none date st row hp, currentDomains_cons_none hp]
    | some p =>
      obtain ⟨rk, d⟩ := p
      rw [rowStep_fs_lookup date st row rk d hp dom, currentDomains_cons_some hp]
      by_cases hd : d = dom
      · rw [if_pos hd]
        have hcc : (((rk, d).2 :: currentDomains rest).contains dom) = true := by
          subst hd; simp [List.contains_cons]
        rw [if_pos hcc]
        by_cases hmem : (currentDomains rest).contains dom = true
        · rw [if_pos hmem]
          cases h0 : alookup st.firstSeen dom with
          | none => simp [h0, Nat.min_self]
          | some d0 =>
            simp only [h0]
            rw [← Nat.min_assoc, Nat.min_self]
        · rw [if_neg hmem]
      · rw [if_neg hd]
        have hcc : (((rk, d).2 :: currentDomains rest).contains dom) =
            ((currentDomains rest).contains dom) := by
          have hdd : (dom == d) = false := beq_eq_false_iff_ne.mpr (fun h => hd h.symm)
          simp only [List.contains_cons, hdd, Bool.false_or]
        rw [hcc]

theorem alookup_cons {α β : Type} [DecidableEq α] (q : α × β) (l : List (α × β)) (a : α) :
    alookup (q :: l) a = if q.1 = a then some q.2 else alookup l a := by
  obtain ⟨k, v⟩ := q
  rfl

theorem fillEntry_fst (date : Nat) (cur : List String) (p : String × Hist) :
    (fillEntry date cur p).1 = p.1 := by
  unfold fillEntry
  split <;> rfl

theorem fillAbsent_lookup (date : Nat) (cur : List String) (r : Rankings) (dom : String) :
    alookup (fillAbsent date cur r) dom =
      (alookup r dom).map (fun h =>
        if cur.contains dom = false ∧ amem h date = false then aset h date 0 else h) := by
  induction r with
  | nil => simp [fillAbsent, alookup]
  | cons p rest ih =>
    obtain ⟨k, h⟩ := p
    rw [show fillAbsent date cur ((k, h) :: rest) =
          fillEntry date cur (k, h) :: fillAbsent date cur rest from rfl,
        alookup_cons, fillEntry_fst, alookup_cons]
    by_cases hk : (k, h).1 = dom
    · rw [if_pos hk, if_pos hk]
      have hk' : k = dom := hk
      subst hk'
      rw [show Option.map (fun h =>
            if cur.contains k = false ∧ amem h date = false then aset h date 0 else h)
            (some h) =
          some (if cur.contains k = false ∧ amem h date = false then aset h date 0 else h)
          from rfl]
      dsimp only [fillEntry]
      by_cases hc : cur.contains k = false ∧ amem h date = false
      · rw [if_pos hc, if_pos hc]
      · rw [if_neg hc, if_neg hc]
    · rw [if_neg hk, if_neg hk, ih]

theorem contains_iff_mem {α : Type} [BEq α] [LawfulBEq α] (l : List α) (a : α) :
    l.contains a = true ↔ a ∈ l := by
  simp

theorem mem_currentDomains_iff (data : List (List String)) (dom : String) :
    dom ∈ currentDomains data ↔ lastRank data dom ≠ none := by
  induction data with
  | nil => simp [currentDomains, lastRank]
  | cons row rest ih =>
    cases hp : parseRow row with
    | none =>
      rw [currentDomains_cons_none hp]
      cases hlr : lastRank rest dom with
      | some r =>
        rw [lastRank_cons_of_rest hlr]
        have hc : dom ∈ currentDomains rest :=
          ih.mpr (by rw [hlr]; exact Option.some_ne_none r)
        simp [hc]
      | none =>
        rw [lastRank_cons_of_none hlr hp]
        exact ⟨fun hmem => absurd hlr (ih.mp hmem), fun hne => absurd rfl hne⟩
    | some p =>
      obtain ⟨rk, d⟩ := p
      rw [currentDomains_cons_some hp]
      cases hlr : lastRank rest dom with
      | some r =>
        rw [lastRank_cons_of_rest hlr]
        have hc : dom ∈ currentDomains rest :=
          ih.mpr (by rw [hlr]; exact Option.some_ne_none r)
        simp [List.mem_cons, hc]
      | none =>
        rw [lastRank_cons_of_row hlr hp]
        by_cases hd : d = dom
        · subst hd
          simp [List.mem_cons]
        · have hd2 : dom ≠ d := fun h => hd h.symm
          rw [if_neg hd]
          simp [List.mem_cons, hd2, ih, hlr]

theorem amem_aset_self {α β : Type} [DecidableEq α] (l : List (α × β)) (k : α) (v : β) :
    amem (aset l k v) k = true := by
  simp [amem, alookup_aset]

theorem process_csv_data_nil (date : Nat) (st : Store) :
    process_csv_data [] date st = st := rfl

theorem merge_rank_lookup {rows : List (List String)} (hne : rows ≠ []) (date : Nat)
    (st : Store) (dom : String) :
    alookup (process_csv_data rows date st).rankings dom =
      match lastRank (pyData rows) dom with
      | some r => some (aset ((alookup st.rankings dom).getD []) date r)
      | none =>
        (alookup st.rankings dom).map
          (fun h => if amem h date = false then aset h date 0 else h) := by
  obtain ⟨row, rest, rfl⟩ : ∃ a l, rows = a :: l := by
    cases rows with
    | nil => exact absurd rfl hne
    | cons a l => exact ⟨a, l, rfl⟩
  show alookup (fillAbsent date (currentDomains (pyData (row :: rest)))
      (((pyData (row :: rest)).foldl (rowStep date) st)).rankings) dom = _
  rw [fillAbsent_lookup, fold_rank_lookup]
  cases hlr : lastRank (pyData (row :: rest)) dom with
  | some r =>
    have hmem : dom ∈ currentDomains (pyData (row :: rest)) :=
      (mem_currentDomains_iff _ _).mpr (by rw [hlr]; exact Option.some_ne_none r)
    simp [hmem]
  | none =>
    have hmem : dom ∉ currentDomains (pyData (row :: rest)) := by
      rw [mem_currentDomains_iff, hlr]
      simp
    cases ho : alookup st.rankings dom with
    | none => simp
    | some h => simp [hmem]

theorem merge_fs_lookup {rows : List (List String)} (hne : rows ≠ []) (date : Nat)
    (st : Store) (dom : String) :
    alookup (process_csv_data rows date st).firstSeen dom =
      if (currentDomains (pyData rows)).contains dom = true then
        some (match alookup st.firstSeen dom with
              | none => date
              | some d0 => min date d0)
      else alookup st.firstSeen dom := by
  obtain ⟨row, rest, rfl⟩ : ∃ a l, rows = a :: l := by
    cases rows with
    | nil => exact absurd rfl hne
    | cons a l => exact ⟨a, l, rfl⟩
  show alookup (((pyData (row :: rest)).foldl (rowStep date) st)).firstSeen dom = _
  rw [fold_fs_lookup]

/-- Python dict equality (`==` ignores insertion order): the two stores have
extensionally equal `domains_rankings` and `domains_first_seen`. -/
def StoreEquiv (s t : Store) : Prop :=
  (∀ dom, alookup s.rankings dom = alookup t.rankings dom) ∧
  (∀ dom, alookup s.firstSeen dom = alookup t.firstSeen dom)

theorem storeEquiv_refl (s : Store) : StoreEquiv s s :=
  ⟨fun _ => rfl, fun _ => rfl⟩

theorem storeEquiv_trans {s t u : Store} (h1 : StoreEquiv s t) (h2 : StoreEquiv t u) :
    StoreEquiv s u :=
  ⟨fun dom => (h1.1 dom).trans (h2.1 dom), fun dom => (h1.2 dom).trans (h2.2 dom)⟩

theorem merge_idem (rows : List (List String)) (date : Nat) (st : Store) :
    StoreEquiv (process_csv_data rows date (process_csv_data rows date st))
      (process_csv_data rows date st) := by
  cases hrows : rows with
  | nil => exact storeEquiv_refl _
  | cons row rest =>
    have hne : (row :: rest) ≠ ([] : List (List String)) := by simp
    constructor
    · intro dom
      rw [merge_rank_lookup hne, merge_rank_lookup hne]
      cases hlr : lastRank (pyData (row :: rest)) dom with
      | some r => simp [aset_aset]
      | none =>
        cases ho : alookup st.rankings dom with
        | none => simp
        | some h =>
          simp only [Option.map_some]
          by_cases hm : amem h date = false
          · simp [hm, amem_aset_self]
          · simp [hm]
    · intro dom
      rw [merge_fs_lookup hne, merge_fs_lookup hne]
      by_cases hcont : (currentDomains (pyData (row :: rest))).contains dom = true
      · simp only [if_pos hcont]
        cases h0 : alookup st.firstSeen dom with
        | none =>
          show some (min date date) = some date
          rw [Nat.min_self]
        | some d0 =>
          show some (min date (min date d0)) = some (min date d0)
          rw [← Nat.min_assoc, Nat.min_self]
      · simp only [if_neg hcont]

theorem merge_congr (rows : List (List String)) (date : Nat) {s t : Store}
    (h : StoreEquiv s t) :
    StoreEquiv (process_csv_data rows date s) (process_csv_data rows date t) := by
  cases hrows : rows with
  | nil => exact h
  | cons row rest =>
    have hne : (row :: rest) ≠ ([] : List (List String)) := by simp
    constructor
    · intro dom
      rw [merge_rank_lookup hne, merge_rank_lookup hne, h.1 dom]
    · intro dom
      rw [merge_fs_lookup hne, merge_fs_lookup hne, h.2 dom]

/-- C1. Merging is idempotent: for every store state, date, and snapshot,
applying `process_csv_data` of the same (date, snapshot) N ≥ 1 times to the
store yields exactly the same `domains_rankings` and `domains_first_seen`
(as Python dicts) as applying it once. -/
theorem process_csv_data_idempotent (rows : List (List String)) (date : Nat) (st : Store)
    (n : Nat) (hn : 1 ≤ n) :
    StoreEquiv ((process_csv_data rows date)^[n] st) (process_csv_data rows date st) := by
  induction n with
  | zero => omega
  | succ m ih =>
    cases Nat.eq_zero_or_pos m with
    | inl hz =>
      subst hz
      exact storeEquiv_refl _
    | inr hpos =>
      rw [Function.iterate_succ_apply']
      exact storeEquiv_trans (merge_congr rows date (ih hpos)) (merge_idem rows date st)

/-- Witness for C1 at a concrete snapshot, store and N = 2. -/
theorem process_csv_data_idempotent_witness :
    1 ≤ 2 ∧ StoreEquiv ((process_csv_data [["1", "a.com"]] 7)^[2] emptyStore)
      (process_csv_data [["1", "a.com"]] 7 emptyStore) :=
  ⟨by decide, process_csv_data_idempotent [["1", "a.com"]] 7 emptyStore 2 (by decide)⟩

/-- Reading one cell of the store: `domains_rankings[dom][t]` when present. -/
def cell (st : Store) (dom : String) (t : Nat) : Option Int :=
  (alookup st.rankings dom).bind fun h => alookup h t

/-- Reading a cell the way the persisted wide table does: a missing cell is
the sentinel `0`. -/
def effCell (st : Store) (dom : String) (t : Nat) : Int :=
  (cell st dom t).getD 0

theorem cell_merge {rows : List (List String)} (hne : rows ≠ []) (date : Nat)
    (st : Store) (dom : String) (t : Nat) :
    cell (process_csv_data rows date st) dom t =
      match lastRank (pyData rows) dom with
      | some r => if t = date then some r else cell st dom t
      | none =>
        match alookup st.rankings dom with
        | some h => if t = date then some ((alookup h date).getD 0) else alookup h t
        | none => none := by
  unfold cell
  rw [merge_rank_lookup hne]
  cases hlr : lastRank (pyData rows) dom with
  | some r =>
    dsimp only
    rw [show (some (aset ((alookup st.rankings dom).getD []) date r)).bind
          (fun h => alookup h t) =
        alookup (aset ((alookup st.rankings dom).getD []) date r) t from rfl,
      alookup_aset]
    by_cases ht : t = date
    · rw [if_pos (show date = t from ht.symm), if_pos ht]
    · rw [if_neg (show ¬ date = t from fun h => ht h.symm), if_neg ht]
      cases ho : alookup st.rankings dom <;> simp [alookup]
  | none =>
    dsimp only
    cases ho : alookup st.rankings dom with
    | none => rfl
    | some h =>
      dsimp only
      rw [show (Option.map (fun h => if amem h date = false then aset h date 0 else h)
            (some h)).bind (fun h => alookup h t) =
          alookup (if amem h date = false then aset h date 0 else h) t from rfl]
      by_cases hm : amem h date = false
      · rw [if_pos hm, alookup_aset]
        have hnone : alookup h date = none := by
          cases hq : alookup h date with
          | none => rfl
          | some v =>
            have habs : amem h date = true := by simp [amem, hq]
            rw [hm] at habs
            exact absurd habs (by simp)
        by_cases ht : t = date
        · subst ht
          simp [hnone]
        · rw [if_neg (show ¬ date = t from fun h => ht h.symm), if_neg ht]
      · rw [if_neg hm]
        by_cases ht : t = date
        · subst ht
          have htrue : amem h t = true := by
            revert hm
            cases amem h t <;> simp
          obtain ⟨v, hv⟩ := (amem_eq_true_iff h t).mp htrue
          simp [hv]
        · rw [if_neg ht]

theorem contains_eq_false_of_not_mem {l : List String} {a : String} (h : a ∉ l) :
    l.contains a = false := by
  cases hq : l.contains a
  · rfl
  · exact absurd ((contains_iff_mem _ _).mp hq) h

/-- C6 (counterexample). On a snapshot holding the same domain on two rows
with ranks 1 then 2, the claim predicts the first occurrence's rank 1 for
the (domain, date) cell; the merge actually stores 2 (Python dict
assignment lets the last duplicate win, and no duplicate warning exists in
the code — warnings are only issued for malformed rows). -/
theorem duplicate_keeps_first_counterexample :
    cell (process_csv_data [["1", "dup.com"], ["2", "dup.com"]] 5 emptyStore) "dup.com" 5 =
        some 2 ∧
      ¬ cell (process_csv_data [["1", "dup.com"], ["2", "dup.com"]] 5 emptyStore) "dup.com" 5 =
        some 1 := by
  constructor
  · decide
  · decide

/-- C6 (amended). For every snapshot containing a domain on more than one
row, the merge keeps the last occurrence's rank for that (domain, date)
cell; subsequent occurrences silently overwrite earlier ones. -/
theorem process_csv_data_duplicate_last_wins (rows : List (List String)) (date : Nat)
    (st : Store) (dom : String) (r : Int)
    (h : lastRank (pyData rows) dom = some r) :
    cell (process_csv_data rows date st) dom date = some r := by
  have hne : rows ≠ [] := by
    intro he
    subst he
    simp [pyData, lastRank] at h
  rw [cell_merge hne, h]
  dsimp only
  rw [if_pos rfl]

/-- Witness for C6's amended theorem on the duplicate snapshot. -/
theorem process_csv_data_duplicate_last_wins_witness :
    lastRank (pyData [["1", "dup.com"], ["2", "dup.com"]]) "dup.com" = some 2 ∧
      cell (process_csv_data [["1", "dup.com"], ["2", "dup.com"]] 5 emptyStore) "dup.com" 5 =
        some 2 :=
  ⟨by decide,
   process_csv_data_duplicate_last_wins [["1", "dup.com"], ["2", "dup.com"]] 5 emptyStore
     "dup.com" 2 (by decide)⟩

theorem hasDom_merge (rows : List (List String)) (date : Nat) (st : Store) (dom : String) :
    (alookup (process_csv_data rows date st).rankings dom).isSome =
      ((alookup st.rankings dom).isSome || (currentDomains (pyData rows)).contains dom) := by
  cases hrows : rows with
  | nil =>
    rw [process_csv_data_nil]
    simp [pyData, currentDomains]
  | cons row rest =>
    have hne : (row :: rest) ≠ ([] : List (List String)) := by simp
    rw [merge_rank_lookup hne]
    cases hlr : lastRank (pyData (row :: rest)) dom with
    | some r =>
      have hmem : dom ∈ currentDomains (pyData (row :: rest)) :=
        (mem_currentDomains_iff _ _).mpr (by rw [hlr]; exact Option.some_ne_none r)
      have hcont := (contains_iff_mem _ _).mpr hmem
      simp [hcont, hmem]
    | none =>
      have hmem : dom ∉ currentDomains (pyData (row :: rest)) := by
        rw [mem_currentDomains_iff, hlr]
        simp
      have hcont := contains_eq_false_of_not_mem hmem
      cases ho : alookup st.rankings dom <;> simp [hcont, hmem]

theorem fs_merge (rows : List (List String)) (date : Nat) (st : Store) (dom : String) :
    alookup (process_csv_data rows date st).firstSeen dom =
      if dom ∈ currentDomains (pyData rows) then
        some (match alookup st.firstSeen dom with
              | none => date
              | some d0 => min date d0)
      else alookup st.firstSeen dom := by
  cases hrows : rows with
  | nil =>
    rw [process_csv_data_nil]
    simp [pyData, currentDomains]
  | cons row rest =>
    have hne : (row :: rest) ≠ ([] : List (List String)) := by simp
    rw [merge_fs_lookup hne]
    by_cases hmem : dom ∈ currentDomains (pyData (row :: rest))
    · rw [if_pos ((contains_iff_mem _ _).mpr hmem), if_pos hmem]
    · rw [if_neg (fun hq => hmem ((contains_iff_mem _ _).mp hq)), if_neg hmem]

theorem effCell_merge (rows : List (List String)) (date : Nat) (st : Store) (dom : String)
    (t : Nat) :
    effCell (process_csv_data rows date st) dom t =
      match lastRank (pyData rows) dom with
      | some r => if t = date then r else effCell st dom t
      | none =>
        if t = date ∧ (alookup st.rankings dom).isSome = true then effCell st dom date
        else effCell st dom t := by
  cases hrows : rows with
  | nil =>
    rw [process_csv_data_nil]
    have hlr : lastRank (pyData ([] : List (List String))) dom = none := rfl
    rw [hlr]
    dsimp only
    by_cases hc : t = date ∧ (alookup st.rankings dom).isSome = true
    · rw [if_pos hc, hc.1]
    · rw [if_neg hc]
  | cons row rest =>
    have hne : (row :: rest) ≠ ([] : List (List String)) := by simp
    unfold effCell
    rw [cell_merge hne]
    cases hlr : lastRank (pyData (row :: rest)) dom with
    | some r =>
      dsimp only
      by_cases ht : t = date
      · rw [if_pos ht, if_pos ht]
        rfl
      · rw [if_neg ht, if_neg ht]
    | none =>
      dsimp only
      cases ho : alookup st.rankings dom with
      | none =>
        dsimp only
        have hfalse : ¬ (t = date ∧ (none : Option Hist).isSome = true) := by
          intro hc
          simp at hc
        rw [if_neg hfalse]
        unfold cell
        rw [ho]
        rfl
      | some h =>
        dsimp only
        by_cases ht : t = date
        · have htrue : t = date ∧ (some h).isSome = true := ⟨ht, rfl⟩
          rw [if_pos ht, if_pos htrue]
          unfold cell
          rw [ho]
          rfl
        · have hfalse : ¬ (t = date ∧ (some h).isSome = true) := fun hc => ht hc.1
          rw [if_neg ht, if_neg hfalse]
          unfold cell
          rw [ho]
          rfl

/-- C2 (counterexample). Merging the snapshots {1: a.com} (date 1) and
{1: b.com} (date 2) in the two orders does not give identical rank_history:
a.com ends with an explicit sentinel cell 0 for date 2 in one order and no
cell for date 2 at all in the other; and b.com, introduced by the second
snapshot only, has first_seen 2, not min 1 2 = 1. -/
theorem merge_order_independent_counterexample :
    ¬ ((∀ dom, alookup (process_csv_data [["1", "b.com"]] 2
            (process_csv_data [["1", "a.com"]] 1 emptyStore)).rankings dom =
          alookup (process_csv_data [["1", "a.com"]] 1
            (process_csv_data [["1", "b.com"]] 2 emptyStore)).rankings dom) ∧
       (∀ dom, (dom ∈ currentDomains (pyData [["1", "a.com"]]) ∨
            dom ∈ currentDomains (pyData [["1", "b.com"]])) →
          alookup (process_csv_data [["1", "b.com"]] 2
            (process_csv_data [["1", "a.com"]] 1 emptyStore)).firstSeen dom =
            some (min 1 2))) := by
  intro hc
  exact absurd (hc.1 "a.com") (by decide)

/-- C2 (amended). For snapshots dated d1 < d2 and any initial store, the two
merge orders agree on the domain set, on every effective cell (a missing
cell reads as the sentinel 0, as the persisted wide table does), and on
every domain's first_seen; a domain not previously known gets first_seen
min(d1,d2) when it occurs in both snapshots, d1 when only in the first, d2
when only in the second. Literal rank_history equality fails only in that
the later-merged date's absence cells are an explicit 0 in one order and
missing in the other. -/
theorem merge_order_independent (s1 s2 : List (List String)) (d1 d2 : Nat) (st : Store)
    (hlt : d1 < d2) :
    (∀ dom, (alookup (process_csv_data s2 d2 (process_csv_data s1 d1 st)).rankings dom).isSome
        = (alookup (process_csv_data s1 d1 (process_csv_data s2 d2 st)).rankings dom).isSome) ∧
    (∀ dom t, effCell (process_csv_data s2 d2 (process_csv_data s1 d1 st)) dom t
        = effCell (process_csv_data s1 d1 (process_csv_data s2 d2 st)) dom t) ∧
    (∀ dom, alookup (process_csv_data s2 d2 (process_csv_data s1 d1 st)).firstSeen dom
        = alookup (process_csv_data s1 d1 (process_csv_data s2 d2 st)).firstSeen dom) ∧
    (∀ dom, alookup st.firstSeen dom = none →
        alookup (process_csv_data s2 d2 (process_csv_data s1 d1 st)).firstSeen dom =
          (if dom ∈ currentDomains (pyData s1) then
            some (if dom ∈ currentDomains (pyData s2) then min d1 d2 else d1)
          else if dom ∈ currentDomains (pyData s2) then some d2 else none)) := by
  have hne : d1 ≠ d2 := Nat.ne_of_lt hlt
  refine ⟨?_, ?_, ?_, ?_⟩
  · intro dom
    rw [hasDom_merge, hasDom_merge, hasDom_merge, hasDom_merge]
    cases hq0 : (alookup st.rankings dom).isSome <;>
      cases hq1 : (currentDomains (pyData s1)).contains dom <;>
        cases hq2 : (currentDomains (pyData s2)).contains dom <;> rfl
  · intro dom t
    rw [effCell_merge s2 d2 (process_csv_data s1 d1 st) dom t,
      effCell_merge s1 d1 (process_csv_data s2 d2 st) dom t,
      effCell_merge s1 d1 st dom t, effCell_merge s1 d1 st dom d2,
      effCell_merge s2 d2 st dom t, effCell_merge s2 d2 st dom d1,
      hasDom_merge s1 d1 st dom, hasDom_merge s2 d2 st dom]
    cases hlr1 : lastRank (pyData s1) dom with
    | some r1 =>
      have hc1 : (currentDomains (pyData s1)).contains dom = true :=
        (contains_iff_mem _ _).mpr
          ((mem_currentDomains_iff _ _).mpr (by rw [hlr1]; exact Option.some_ne_none r1))
      cases hlr2 : lastRank (pyData s2) dom with
      | some r2 =>
        dsimp only
        by_cases ht2 : t = d2
        · subst ht2
          have hn21 : ¬ t = d1 := fun h => hne h.symm
          rw [if_pos rfl, if_neg hn21, if_pos rfl]
        · by_cases ht1 : t = d1
          · subst ht1
            rw [if_neg ht2, if_pos rfl, if_pos rfl]
          · rw [if_neg ht2, if_neg ht1, if_neg ht1, if_neg ht2]
      | none =>
        dsimp only
        rw [hc1, Bool.or_true]
        by_cases ht2 : t = d2
        · subst ht2
          have hp : t = t ∧ (true = true) := ⟨rfl, rfl⟩
          have hn21 : ¬ t = d1 := fun h => hne h.symm
          rw [if_pos hp, if_neg hn21, if_neg hn21]
          by_cases hS : (alookup st.rankings dom).isSome = true
          · have hp2 : t = t ∧ (alookup st.rankings dom).isSome = true := ⟨rfl, hS⟩
            rw [if_pos hp2]
          · have hn2 : ¬ (t = t ∧ (alookup st.rankings dom).isSome = true) :=
              fun hq => hS hq.2
            rw [if_neg hn2]
        · have hnq : ¬ (t = d2 ∧ (true = true)) := fun hq => ht2 hq.1
          rw [if_neg hnq]
          by_cases ht1 : t = d1
          · subst ht1
            rw [if_pos rfl, if_pos rfl]
          · have hnq2 : ¬ (t = d2 ∧ (alookup st.rankings dom).isSome = true) :=
              fun hq => ht2 hq.1
            rw [if_neg ht1, if_neg ht1, if_neg hnq2]
    | none =>
      have hm1 : dom ∉ currentDomains (pyData s1) := by
        rw [mem_currentDomains_iff, hlr1]
        simp
      have hc1 : (currentDomains (pyData s1)).contains dom = false :=
        contains_eq_false_of_not_mem hm1
      cases hlr2 : lastRank (pyData s2) dom with
      | some r2 =>
        have hc2 : (currentDomains (pyData s2)).contains dom = true :=
          (contains_iff_mem _ _).mpr
            ((mem_currentDomains_iff _ _).mpr (by rw [hlr2]; exact Option.some_ne_none r2))
        dsimp only
        rw [hc2, Bool.or_true]
        by_cases ht2 : t = d2
        · subst ht2
          have hn21 : ¬ (t = d1 ∧ (true = true)) := fun hq => hne hq.1.symm
          rw [if_pos rfl, if_neg hn21, if_pos rfl]
        · rw [if_neg ht2]
          by_cases ht1 : t = d1
          · subst ht1
            have hp : t = t ∧ (true = true) := ⟨rfl, rfl⟩
            rw [if_pos hp, if_neg hne]
            by_cases hS : (alookup st.rankings dom).isSome = true
            · have hp1 : t = t ∧ (alookup st.rankings dom).isSome = true := ⟨rfl, hS⟩
              rw [if_pos hp1]
            · have hn1 : ¬ (t = t ∧ (alookup st.rankings dom).isSome = true) :=
                fun hq => hS hq.2
              rw [if_neg hn1]
          · have hnp : ¬ (t = d1 ∧ (true = true)) := fun hq => ht1 hq.1
            have hn1S : ¬ (t = d1 ∧ (alookup st.rankings dom).isSome = true) :=
              fun hq => ht1 hq.1
            rw [if_neg hn1S, if_neg hnp, if_neg ht2]
      | none =>
        have hm2 : dom ∉ currentDomains (pyData s2) := by
          rw [mem_currentDomains_iff, hlr2]
          simp
        have hc2 : (currentDomains (pyData s2)).contains dom = false :=
          contains_eq_false_of_not_mem hm2
        dsimp only
        rw [hc1, Bool.or_false, hc2, Bool.or_false]
        by_cases hS : (alookup st.rankings dom).isSome = true
        · by_cases ht2 : t = d2
          · subst ht2
            have hpos2 : t = t ∧ (alookup st.rankings dom).isSome = true := ⟨rfl, hS⟩
            have hneg21 : ¬ (t = d1 ∧ (alookup st.rankings dom).isSome = true) :=
              fun hq => hne hq.1.symm
            rw [if_pos hpos2, if_neg hneg21, if_neg hneg21, if_pos hpos2]
          · by_cases ht1 : t = d1
            · subst ht1
              have hpos1 : t = t ∧ (alookup st.rankings dom).isSome = true := ⟨rfl, hS⟩
              have hneg12 : ¬ (t = d2 ∧ (alookup st.rankings dom).isSome = true) :=
                fun hq => hne hq.1
              rw [if_neg hneg12, if_pos hpos1, if_pos hpos1, if_neg hneg12]
            · have hnt2 : ¬ (t = d2 ∧ (alookup st.rankings dom).isSome = true) :=
                fun hq => ht2 hq.1
              have hnt1 : ¬ (t = d1 ∧ (alookup st.rankings dom).isSome = true) :=
                fun hq => ht1 hq.1
              rw [if_neg hnt2, if_neg hnt1, if_neg hnt1, if_neg hnt2]
        · have hn : ∀ c : Prop, ¬ (c ∧ (alookup st.rankings dom).isSome = true) :=
            fun c hq => hS hq.2
          rw [if_neg (hn _), if_neg (hn _), if_neg (hn _), if_neg (hn _)]
  · intro dom
    rw [fs_merge s2 d2 (process_csv_data s1 d1 st) dom,
      fs_merge s1 d1 (process_csv_data s2 d2 st) dom,
      fs_merge s1 d1 st dom, fs_merge s2 d2 st dom]
    by_cases h1 : dom ∈ currentDomains (pyData s1) <;>
      by_cases h2 : dom ∈ currentDomains (pyData s2)
    · simp only [if_pos h1, if_pos h2]
      cases h0 : alookup st.firstSeen dom with
      | none =>
        show some (min d2 d1) = some (min d1 d2)
        rw [Nat.min_comm]
      | some f0 =>
        show some (min d2 (min d1 f0)) = some (min d1 (min d2 f0))
        congr 1
        omega
    · simp only [if_pos h1, if_neg h2]
    · simp only [if_neg h1, if_pos h2]
    · simp only [if_neg h1, if_neg h2]
  · intro dom h0
    rw [fs_merge s2 d2 (process_csv_data s1 d1 st) dom, fs_merge s1 d1 st dom, h0]
    by_cases h1 : dom ∈ currentDomains (pyData s1) <;>
      by_cases h2 : dom ∈ currentDomains (pyData s2)
    · simp only [if_pos h1, if_pos h2]
      show some (min d2 d1) = some (min d1 d2)
      rw [Nat.min_comm]
    · simp only [if_pos h1, if_neg h2]
    · simp only [if_neg h1, if_pos h2]
    · simp only [if_neg h1, if_neg h2]

/-- Witness for C2's amended theorem at the counterexample's snapshots. -/
theorem merge_order_independent_witness :
    1 < 2 ∧
      (∀ dom t, effCell (process_csv_data [["1", "b.com"]] 2
          (process_csv_data [["1", "a.com"]] 1 emptyStore)) dom t
        = effCell (process_csv_data [["1", "a.com"]] 1
          (process_csv_data [["1", "b.com"]] 2 emptyStore)) dom t) :=
  ⟨by decide,
   (merge_order_independent [["1", "a.com"]] [["1", "b.com"]] 1 2 emptyStore (by decide)).2.1⟩

/-- A whole import run: fold a list of dated snapshots (in list order) into
the store, exactly as the commit loop of `process_commit_chunk` feeds each
snapshot to `process_csv_data`. -/
def runMerges (l : List (List (List String) × Nat)) (st : Store) : Store :=
  l.foldl (fun st p => process_csv_data p.1 p.2 st) st

/-- Invariant tying `first_seen` to the defined cells after merging the
dates `T`. -/
def ClosedWorldInv (st : Store) (T : List Nat) : Prop :=
  (∀ dom, (alookup st.rankings dom).isSome = (alookup st.firstSeen dom).isSome) ∧
  (∀ dom f, alookup st.firstSeen dom = some f → f ∈ T) ∧
  (∀ dom t, (cell st dom t).isSome = true → t ∈ T) ∧
  (∀ dom f, alookup st.firstSeen dom = some f →
    ∀ t, t ∈ T → (f ≤ t → (cell st dom t).isSome = true) ∧ (t < f → cell st dom t = none))

theorem closedWorldInv_empty : ClosedWorldInv emptyStore [] := by
  refine ⟨fun dom => rfl, fun dom f hf => ?_, fun dom t hc => ?_, fun dom f hf => ?_⟩
  · simp [emptyStore, alookup] at hf
  · simp [cell, emptyStore, alookup] at hc
  · simp [emptyStore, alookup] at hf

theorem closedWorldInv_merge {st : Store} {T : List Nat}
    (hinv : ClosedWorldInv st T) {rows : List (List String)} (hrows : rows ≠ [])
    {d : Nat} (hd : ∀ t ∈ T, t ≤ d) :
    ClosedWorldInv (process_csv_data rows d st) (T ++ [d]) := by
  obtain ⟨h1, h2, h3, h4⟩ := hinv
  refine ⟨?_, ?_, ?_, ?_⟩
  · intro dom
    rw [hasDom_merge, fs_merge]
    by_cases hm : dom ∈ currentDomains (pyData rows)
    · rw [if_pos hm, (contains_iff_mem _ _).mpr hm, Bool.or_true]
      rfl
    · rw [if_neg hm, contains_eq_false_of_not_mem hm, Bool.or_false, h1]
  · intro dom f hf
    rw [fs_merge] at hf
    by_cases hm : dom ∈ currentDomains (pyData rows)
    · rw [if_pos hm] at hf
      cases h0 : alookup st.firstSeen dom with
      | none =>
        rw [h0] at hf
        simp only [Option.some.injEq] at hf
        subst hf
        exact List.mem_append_right _ (by simp)
      | some f0 =>
        rw [h0] at hf
        simp only [Option.some.injEq] at hf
        subst hf
        rcases Nat.le_total d f0 with hle | hle
        · rw [Nat.min_eq_left hle]
          exact List.mem_append_right _ (by simp)
        · rw [Nat.min_eq_right hle]
          exact List.mem_append_left _ (h2 dom f0 h0)
    · rw [if_neg hm] at hf
      exact List.mem_append_left _ (h2 dom f hf)
  · intro dom t hc
    rw [cell_merge hrows] at hc
    cases hlr : lastRank (pyData rows) dom with
    | some r =>
      rw [hlr] at hc
      dsimp only at hc
      by_cases ht : t = d
      · exact List.mem_append_right _ (by simp [ht])
      · rw [if_neg ht] at hc
        exact List.mem_append_left _ (h3 dom t hc)
    | none =>
      rw [hlr] at hc
      dsimp only at hc
      cases ho : alookup st.rankings dom with
      | none =>
        rw [ho] at hc
        simp at hc
      | some h =>
        rw [ho] at hc
        dsimp only at hc
        by_cases ht : t = d
        · exact List.mem_append_right _ (by simp [ht])
        · rw [if_neg ht] at hc
          have : (cell st dom t).isSome = true := by
            unfold cell
            rw [ho]
            exact hc
          exact List.mem_append_left _ (h3 dom t this)
  · intro dom f hf t ht
    have htd : t ∈ T ∨ t = d := by
      rcases List.mem_append.mp ht with h | h
      · exact Or.inl h
      · exact Or.inr (by simpa using h)
    rw [fs_merge] at hf
    rw [cell_merge hrows]
    by_cases hm : dom ∈ currentDomains (pyData rows)
    · rw [if_pos hm] at hf
      have hlr : ∃ r, lastRank (pyData rows) dom = some r := by
        have := (mem_currentDomains_iff _ _).mp hm
        cases hq : lastRank (pyData rows) dom
        · exact absurd hq this
        · exact ⟨_, rfl⟩
      obtain ⟨r, hlr⟩ := hlr
      rw [hlr]
      dsimp only
      cases h0 : alookup st.firstSeen dom with
      | none =>
        rw [h0] at hf
        simp only [Option.some.injEq] at hf
        subst hf
        have hrank : alookup st.rankings dom = none := by
          have := h1 dom
          rw [h0] at this
          cases hq : alookup st.rankings dom
          · rfl
          · rw [hq] at this
            simp at this
        constructor
        · intro hft
          by_cases htd2 : t = d
          · rw [if_pos htd2]
            rfl
          · rcases htd with hT | hD
            · have := hd t hT
              omega
            · exact absurd hD htd2
        · intro htf
          have htd2 : ¬ t = d := by omega
          rw [if_neg htd2]
          unfold cell
          rw [hrank]
          rfl
      | some f0 =>
        rw [h0] at hf
        simp only [Option.some.injEq] at hf
        subst hf
        constructor
        · intro hft
          by_cases htd2 : t = d
          · rw [if_pos htd2]
            rfl
          · rw [if_neg htd2]
            rcases htd with hT | hD
            · have hf0t : f0 ≤ t := by
                have h5 := hd t hT
                rcases le_total d f0 with hdf | hdf
                · rw [min_eq_left hdf] at hft
                  exact absurd (Nat.le_antisymm h5 hft) htd2
                · rw [min_eq_right hdf] at hft
                  exact hft
              exact ((h4 dom f0 h0 t hT).1 hf0t)
            · exact absurd hD htd2
        · intro htf
          have htd2 : ¬ t = d := by
            intro he
            rw [he] at htf
            exact absurd (lt_of_lt_of_le htf (min_le_left d f0)) (lt_irrefl d)
          rw [if_neg htd2]
          rcases htd with hT | hD
          · have hf0t : t < f0 := lt_of_lt_of_le htf (min_le_right d f0)
            exact (h4 dom f0 h0 t hT).2 hf0t
          · exact absurd hD htd2
    · rw [if_neg hm] at hf
      have hlr : lastRank (pyData rows) dom = none := by
        cases hq : lastRank (pyData rows) dom
        · rfl
        · exact absurd ((mem_currentDomains_iff _ _).mpr (by rw [hq]; simp)) hm
      rw [hlr]
      dsimp only
      have hfT : f ∈ T := h2 dom f hf
      have hfd : f ≤ d := hd f hfT
      have hrank : ∃ h, alookup st.rankings dom = some h := by
        have := h1 dom
        rw [hf] at this
        cases hq : alookup st.rankings dom
        · rw [hq] at this
          simp at this
        · exact ⟨_, rfl⟩
      obtain ⟨h, ho⟩ := hrank
      rw [ho]
      dsimp only
      have hcst : ∀ u, cell st dom u = alookup h u := by
        intro u
        unfold cell
        rw [ho]
        rfl
      constructor
      · intro hft
        by_cases htd2 : t = d
        · rw [if_pos htd2]
          rfl
        · rw [if_neg htd2]
          rcases htd with hT | hD
          · have := (h4 dom f hf t hT).1 hft
            rw [hcst t] at this
            exact this
          · exact absurd hD htd2
      · intro htf
        have htd2 : ¬ t = d := by omega
        rw [if_neg htd2]
        rcases htd with hT | hD
        · have := (h4 dom f hf t hT).2 htf
          rw [hcst t] at this
          exact this
        · exact absurd hD htd2

theorem runMerges_inv (l : List (List (List String) × Nat)) (st : Store) (T : List Nat)
    (hinv : ClosedWorldInv st T)
    (hb : ∀ t ∈ T, ∀ d ∈ l.map Prod.snd, t ≤ d)
    (hsorted : List.Sorted (· ≤ ·) (l.map Prod.snd))
    (hne : ∀ p ∈ l, p.1 ≠ []) :
    ClosedWorldInv (runMerges l st) (T ++ l.map Prod.snd) := by
  induction l generalizing st T with
  | nil => simpa [runMerges] using hinv
  | cons p rest ih =>
    have hstep : ClosedWorldInv (process_csv_data p.1 p.2 st) (T ++ [p.2]) :=
      closedWorldInv_merge hinv (hne p (by simp))
        (fun t ht => hb t ht p.2 (by simp))
    have hsorted2 : List.Sorted (· ≤ ·) (p.2 :: rest.map Prod.snd) := by
      simpa using hsorted
    have hsc := List.sorted_cons.mp hsorted2
    have hres := ih (process_csv_data p.1 p.2 st) (T ++ [p.2]) hstep
      (by
        intro t ht d hdmem
        rcases List.mem_append.mp ht with hT | hp2
        · exact hb t hT d (by simp [hdmem])
        · have : t = p.2 := by simpa using hp2
          subst this
          exact hsc.1 d hdmem)
      hsc.2
      (fun q hq => hne q (by simp [hq]))
    have : runMerges (p :: rest) st = runMerges rest (process_csv_data p.1 p.2 st) := rfl
    rw [this]
    have happ : (T ++ [p.2]) ++ rest.map Prod.snd = T ++ (p :: rest).map Prod.snd := by
      simp
    rw [← happ]
    exact hres

/-- C3 (counterexample). Merging {1: b.com} dated 2, then {1: a.com} dated 1
(an out-of-order backfill merge, which the merge engine explicitly
supports) violates the closed-world invariant: date 1 is a merged date,
b.com has first_seen 2 > 1, yet b.com has a defined cell (the sentinel 0)
for date 1, written by the second merge's absent-domain pass. -/
theorem closed_world_counterexample :
    ¬ (∀ t ∈ ([([["1", "b.com"]], 2), ([["1", "a.com"]], 1)].map Prod.snd), ∀ dom f,
        alookup (runMerges [([["1", "b.com"]], 2), ([["1", "a.com"]], 1)]
            emptyStore).firstSeen dom = some f →
        ((f ≤ t → (cell (runMerges [([["1", "b.com"]], 2), ([["1", "a.com"]], 1)]
            emptyStore) dom t).isSome = true) ∧
         (t < f → cell (runMerges [([["1", "b.com"]], 2), ([["1", "a.com"]], 1)]
            emptyStore) dom t = none))) := by
  intro hc
  have h := (hc 1 (by decide) "b.com" 2 (by decide)).2 (by decide)
  exact absurd h (by decide)

/-- C3 (amended). When the snapshots are merged in non-decreasing date order
(as the driver does: `main` sorts the date directories before chunking) and
each snapshot is non-empty, the closed-world invariant holds from an empty
store: for every merged date t, a domain with first_seen ≤ t has a defined
cell (positive rank or sentinel 0) for t, and a domain with first_seen > t
has no cell for t at all. -/
theorem closed_world_sorted (l : List (List (List String) × Nat))
    (hsorted : List.Sorted (· ≤ ·) (l.map Prod.snd))
    (hne : ∀ p ∈ l, p.1 ≠ []) :
    ∀ t ∈ l.map Prod.snd, ∀ dom f,
      alookup (runMerges l emptyStore).firstSeen dom = some f →
      ((f ≤ t → (cell (runMerges l emptyStore) dom t).isSome = true) ∧
       (t < f → cell (runMerges l emptyStore) dom t = none)) := by
  intro t ht dom f hf
  have hinv := runMerges_inv l emptyStore [] closedWorldInv_empty
    (by intro u hu; simp at hu) hsorted hne
  rw [List.nil_append] at hinv
  exact hinv.2.2.2 dom f hf t ht

/-- Witness for C3's amended theorem on a sorted two-snapshot run. -/
theorem closed_world_sorted_witness :
    List.Sorted (· ≤ ·) ([([["1", "a.com"]], 1), ([["1", "b.com"]], 2)].map Prod.snd) ∧
    (∀ p ∈ [([["1", "a.com"]], 1), ([["1", "b.com"]], 2)], p.1 ≠ []) ∧
    ((2 : Nat) ∈ ([([["1", "a.com"]], 1), ([["1", "b.com"]], 2)].map Prod.snd)) ∧
    ((1 ≤ 2 → (cell (runMerges [([["1", "a.com"]], 1), ([["1", "b.com"]], 2)] emptyStore)
        "a.com" 2).isSome = true) ∧
     (2 < 1 → cell (runMerges [([["1", "a.com"]], 1), ([["1", "b.com"]], 2)] emptyStore)
        "a.com" 2 = none)) :=
  ⟨by decide, by decide, by decide,
   closed_world_sorted [([["1", "a.com"]], 1), ([["1", "b.com"]], 2)] (by decide) (by decide)
     2 (by decide) "a.com" 1 (by decide)⟩

/-- The per-row rank-change classification `calculate_change` of
`rank_change_analyzer.py` (lines 136-153; the same function appears in
`rank_change_analyzer_old.py` lines 85-94). -/
def calculate_change (startRank endRank : Int) : Int :=
  if startRank = 0 ∧ endRank > 0 then 1000000
  else if startRank > 0 ∧ endRank = 0 then -1000000
  else if startRank = 0 ∧ endRank = 0 then 0
  else startRank - endRank

/-- C5. The Change Analyzer classifies every (start_rank, end_rank) pair of
nonnegative ranks exactly as the spec's four cases: start=0, end>0 gives the
new-entrant sentinel 1000000; start>0, end=0 gives the dropped-out sentinel
-1000000; both positive gives start - end; both zero gives 0. -/
theorem calculate_change_classification (startRank endRank : Int)
    (hs : 0 ≤ startRank) (he : 0 ≤ endRank) :
    (startRank = 0 ∧ 0 < endRank → calculate_change startRank endRank = 1000000) ∧
    (0 < startRank ∧ endRank = 0 → calculate_change startRank endRank = -1000000) ∧
    (0 < startRank ∧ 0 < endRank → calculate_change startRank endRank = startRank - endRank) ∧
    (startRank = 0 ∧ endRank = 0 → calculate_change startRank endRank = 0) := by
  unfold calculate_change
  refine ⟨?_, ?_, ?_, ?_⟩
  · rintro ⟨h1, h2⟩
    rw [if_pos ⟨h1, h2⟩]
  · rintro ⟨h1, h2⟩
    rw [if_neg (show ¬ (startRank = 0 ∧ endRank > 0) from fun hq => by omega),
      if_pos ⟨h1, h2⟩]
  · rintro ⟨h1, h2⟩
    rw [if_neg (show ¬ (startRank = 0 ∧ endRank > 0) from fun hq => by omega),
      if_neg (show ¬ (startRank > 0 ∧ endRank = 0) from fun hq => by omega),
      if_neg (show ¬ (startRank = 0 ∧ endRank = 0) from fun hq => by omega)]
  · rintro ⟨h1, h2⟩
    rw [if_neg (show ¬ (startRank = 0 ∧ endRank > 0) from fun hq => by omega),
      if_neg (show ¬ (startRank > 0 ∧ endRank = 0) from fun hq => by omega),
      if_pos ⟨h1, h2⟩]

/-- Witness for C5 at the spec's example start=10, end=5 (change +5). -/
theorem calculate_change_classification_witness :
    (0 ≤ (10 : Int)) ∧ (0 ≤ (5 : Int)) ∧
      (0 < (10 : Int) ∧ 0 < (5 : Int) → calculate_change 10 5 = 10 - 5) :=
  ⟨by decide, by decide, (calculate_change_classification 10 5 (by decide) (by decide)).2.2.1⟩

/-- The date-fallback logic of `calculate_rank_changes`
(`rank_change_analyzer.py` lines 100-122), resolving the requested
(start, end) dates against the store's date columns: a requested date that
is not a column is replaced by the last entry of the ascending-sorted
available dates that is ≤ the requested one, and the function returns
`None` when no such date exists (start checked first). The DataFrame
arithmetic that follows (lines 124-177) consumes the resolved dates and
cannot fail. -/
def calculate_rank_changes (cols : List Nat) (startDate endDate : Nat) :
    Option (Nat × Nat) :=
  if startDate ∈ cols ∧ endDate ∈ cols then some (startDate, endDate)
  else
    match (if startDate ∈ cols then some startDate
           else ((List.insertionSort (· ≤ ·) cols).filter
             (fun c => decide (c ≤ startDate))).getLast?) with
    | none => none
    | some s =>
      match (if endDate ∈ cols then some endDate
             else ((List.insertionSort (· ≤ ·) cols).filter
               (fun c => decide (c ≤ endDate))).getLast?) with
      | none => none
      | some e => some (s, e)

theorem getLast?_eq_none_iff {α : Type} {l : List α} : l.getLast? = none ↔ l = [] := by
  cases l <;> simp [List.getLast?]

theorem mem_of_getLast? {α : Type} {l : List α} {y : α} (h : l.getLast? = some y) :
    y ∈ l := by
  induction l with
  | nil => simp [List.getLast?] at h
  | cons a rest ih =>
    cases rest with
    | nil =>
      simp [List.getLast?] at h
      simp [h]
    | cons b r2 =>
      rw [List.getLast?_cons_cons] at h
      exact List.mem_cons_of_mem _ (ih h)

theorem sorted_le_getLast? {l : List Nat} (hs : List.Sorted (· ≤ ·) l) {x y : Nat}
    (hx : x ∈ l) (hy : l.getLast? = some y) : x ≤ y := by
  induction l with
  | nil => simp at hx
  | cons a rest ih =>
    cases rest with
    | nil =>
      simp [List.getLast?] at hy
      simp at hx
      omega
    | cons b r2 =>
      rw [List.getLast?_cons_cons] at hy
      rcases List.mem_cons.mp hx with rfl | hx2
      · exact (List.sorted_cons.mp hs).1 y (mem_of_getLast? hy)
      · exact ih (List.sorted_cons.mp hs).2 hx2 hy

theorem resolveDate_none_iff (cols : List Nat) (q : Nat) :
    ((if q ∈ cols then some q
      else ((List.insertionSort (· ≤ ·) cols).filter (fun c => decide (c ≤ q))).getLast?) =
        none ↔ ∀ c ∈ cols, ¬ c ≤ q) := by
  by_cases hq : q ∈ cols
  · rw [if_pos hq]
    exact iff_of_false (by simp) (fun hall => absurd (le_refl q) (hall q hq))
  · rw [if_neg hq, getLast?_eq_none_iff, List.filter_eq_nil_iff]
    constructor
    · intro h c hc hle
      have hcavail : c ∈ List.insertionSort (· ≤ ·) cols :=
        (List.perm_insertionSort _ cols).mem_iff.mpr hc
      have h2 := h c hcavail
      simp at h2
      omega
    · intro hall c hcavail
      have hc : c ∈ cols := (List.perm_insertionSort _ cols).mem_iff.mp hcavail
      simp [hall c hc]

theorem resolveDate_some (cols : List Nat) (q x : Nat)
    (h : (if q ∈ cols then some q
      else ((List.insertionSort (· ≤ ·) cols).filter (fun c => decide (c ≤ q))).getLast?) =
        some x) :
    x ∈ cols ∧ x ≤ q ∧ ∀ c ∈ cols, c ≤ q → c ≤ x := by
  by_cases hq : q ∈ cols
  · rw [if_pos hq] at h
    simp only [Option.some.injEq] at h
    subst h
    exact ⟨hq, le_refl q, fun c _ hc => hc⟩
  · rw [if_neg hq] at h
    have hxmem1 : x ∈ (List.insertionSort (· ≤ ·) cols).filter (fun c => decide (c ≤ q)) :=
      mem_of_getLast? h
    have hx2 := List.mem_filter.mp hxmem1
    have hxcols : x ∈ cols := (List.perm_insertionSort _ cols).mem_iff.mp hx2.1
    have hxq : x ≤ q := by
      have := hx2.2
      simpa using this
    refine ⟨hxcols, hxq, ?_⟩
    intro c hc hcq
    have hcavail : c ∈ List.insertionSort (· ≤ ·) cols :=
      (List.perm_insertionSort _ cols).mem_iff.mpr hc
    have hcfilter : c ∈ (List.insertionSort (· ≤ ·) cols).filter (fun c => decide (c ≤ q)) :=
      List.mem_filter.mpr ⟨hcavail, by simpa using hcq⟩
    have hsorted : List.Sorted (· ≤ ·)
        ((List.insertionSort (· ≤ ·) cols).filter (fun c => decide (c ≤ q))) :=
      (List.sorted_insertionSort (· ≤ ·) cols).filter _
    exact sorted_le_getLast? hsorted hcfilter h

/-- C7. The analyzer substitutes, for each requested date with no column,
the nearest (largest) available date ≤ the requested one, and returns no
result exactly when some requested date has no available date ≤ it. -/
theorem calculate_rank_changes_fallback (cols : List Nat) (s e : Nat) :
    (calculate_rank_changes cols s e = none ↔
      (∀ c ∈ cols, ¬ c ≤ s) ∨ (∀ c ∈ cols, ¬ c ≤ e)) ∧
    (∀ s' e', calculate_rank_changes cols s e = some (s', e') →
      (s' ∈ cols ∧ s' ≤ s ∧ ∀ c ∈ cols, c ≤ s → c ≤ s') ∧
      (e' ∈ cols ∧ e' ≤ e ∧ ∀ c ∈ cols, c ≤ e → c ≤ e')) := by
  unfold calculate_rank_changes
  by_cases hboth : s ∈ cols ∧ e ∈ cols
  · rw [if_pos hboth]
    constructor
    · constructor
      · intro h
        exact absurd h (by simp)
      · rintro (h | h)
        · exact absurd (le_refl s) (h s hboth.1)
        · exact absurd (le_refl e) (h e hboth.2)
    · intro s' e' hse
      simp only [Option.some.injEq, Prod.mk.injEq] at hse
      obtain ⟨rfl, rfl⟩ := hse
      exact ⟨⟨hboth.1, le_refl s, fun c _ hc => hc⟩, ⟨hboth.2, le_refl e, fun c _ hc => hc⟩⟩
  · rw [if_neg hboth]
    cases hr1 : (if s ∈ cols then some s
        else ((List.insertionSort (· ≤ ·) cols).filter
          (fun c => decide (c ≤ s))).getLast?) with
    | none =>
      have hres := (resolveDate_none_iff cols s).mp hr1
      constructor
      · exact iff_of_true rfl (Or.inl hres)
      · intro s' e' hse
        exact absurd hse (by simp)
    | some sr =>
      have hsr := resolveDate_some cols s sr hr1
      cases hr2 : (if e ∈ cols then some e
          else ((List.insertionSort (· ≤ ·) cols).filter
            (fun c => decide (c ≤ e))).getLast?) with
      | none =>
        have hres := (resolveDate_none_iff cols e).mp hr2
        constructor
        · exact iff_of_true rfl (Or.inr hres)
        · intro s' e' hse
          exact absurd hse (by simp)
      | some er =>
        have her := resolveDate_some cols e er hr2
        constructor
        · constructor
          · intro h
            exact absurd h (by simp)
          · rintro (h | h)
            · exact absurd hsr.2.1 (fun hle => h sr hsr.1 hle)
            · exact absurd her.2.1 (fun hle => h er her.1 hle)
        · intro s' e' hse
          simp only [Option.some.injEq, Prod.mk.injEq] at hse
          obtain ⟨rfl, rfl⟩ := hse
          exact ⟨hsr, her⟩

/-- Witness for C7: with columns {3, 5}, requesting (4, 6) resolves to
(3, 5), the nearest available dates at or before the requested ones. -/
theorem calculate_rank_changes_fallback_witness :
    calculate_rank_changes [3, 5] 4 6 = some (3, 5) ∧
      ((3 ∈ [3, 5] ∧ 3 ≤ 4 ∧ ∀ c ∈ [3, 5], c ≤ 4 → c ≤ 3) ∧
       (5 ∈ [3, 5] ∧ 5 ≤ 6 ∧ ∀ c ∈ [3, 5], c ≤ 6 → c ≤ 5)) :=
  ⟨by decide, (calculate_rank_changes_fallback [3, 5] 4 6).2 3 5 (by decide)⟩

/-- Loop state of `update_database` in `your_script_name.py`: the two store
dicts plus the `new_domains` accumulator and the `current_domains` set. -/
structure DailyState where
  rankings : Rankings
  firstSeen : FirstSeen
  newDomains : List String
  current : List String

/-- One iteration of the row loop of `update_database`
(`your_script_name.py` lines 271-295): rows need exactly two fields, the
rank is parsed with `int`, the domain is added to `current_domains`, the
rank cell is written, and a domain absent from `domains_first_seen` gets
`first_seen = date` and is reported in `new_domains` unless this is the
first run ever. -/
def updateRow (date : Nat) (isFirstRun : Bool) (s : DailyState) (row : List String) :
    DailyState :=
  match row with
  | [r0, r1] =>
    match pyToInt (pyStrip r0) with
    | none => s
    | some rank =>
      let domain := pyStrip r1
      let current := if s.current.contains domain then s.current else s.current ++ [domain]
      let rankings := aset s.rankings domain
        (aset ((alookup s.rankings domain).getD []) date rank)
      if (alookup s.firstSeen domain).isSome then
        { rankings := rankings, firstSeen := s.firstSeen, newDomains := s.newDomains,
          current := current }
      else
        { rankings := rankings, firstSeen := aset s.firstSeen domain date,
          newDomains := if isFirstRun then s.newDomains else s.newDomains ++ [domain],
          current := current }
  | _ => s

/-- The pure core of `update_database` (`your_script_name.py` lines
204-348): given the already-loaded store and the parsed CSV rows (header
already dropped by `list(reader)[1:]`), it returns the updated store and
the `new_domains` report. `is_first_run` is `len(domains_first_seen) == 0`
on the loaded store; after the row loop every domain absent from
`current_domains` gets its cell for `date` overwritten with 0. The
SQLite writes and the CSV save/load mirror these dicts and are modeled as a
faithful round-trip of `domains_first_seen`. -/
def update_database (data : List (List String)) (date : Nat)
    (rankings : Rankings) (firstSeen : FirstSeen) : Store × List String :=
  let isFirstRun := firstSeen.isEmpty
  let s := data.foldl (updateRow date isFirstRun) ⟨rankings, firstSeen, [], []⟩
  let rankings2 := s.rankings.map (fun p =>
    if s.current.contains p.1 = false then (p.1, aset p.2 date 0) else p)
  (⟨rankings2, s.firstSeen⟩, s.newDomains)

/-- Domains of the rows that the daily row loop accepts. -/
def dailyDomains (data : List (List String)) : List String :=
  data.filterMap (fun row =>
    match row with
    | [r0, r1] => (pyToInt (pyStrip r0)).map (fun _ => pyStrip r1)
    | _ => none)

theorem updateRow_fs_mono (date : Nat) (b : Bool) (s : DailyState) (row : List String)
    (dom : String) (h : (alookup s.firstSeen dom).isSome = true) :
    (alookup (updateRow date b s row).firstSeen dom).isSome = true := by
  cases row with
  | nil => simpa [updateRow] using h
  | cons r0 rest =>
    cases rest with
    | nil => simpa [updateRow] using h
    | cons r1 rest2 =>
      cases rest2 with
      | cons r2 rest3 => simpa [updateRow] using h
      | nil =>
        cases hp : pyToInt (pyStrip r0) with
        | none => simpa [updateRow, hp] using h
        | some rank =>
          simp only [updateRow, hp]
          by_cases hfs : (alookup s.firstSeen (pyStrip r1)).isSome = true
          · rw [if_pos hfs]
            exact h
          · rw [if_neg hfs]
            dsimp only
            rw [alookup_aset]
            by_cases hd : pyStrip r1 = dom
            · rw [if_pos hd]
              rfl
            · rw [if_neg hd]
              exact h

theorem fold_fs_mono (data : List (List String)) (date : Nat) (b : Bool) (s : DailyState)
    (dom : String) (h : (alookup s.firstSeen dom).isSome = true) :
    (alookup ((data.foldl (updateRow date b) s)).firstSeen dom).isSome = true := by
  induction data generalizing s with
  | nil => exact h
  | cons row rest ih =>
    exact ih (updateRow date b s row) (updateRow_fs_mono date b s row dom h)

theorem fold_fs_all (data : List (List String)) (date : Nat) (b : Bool) (s : DailyState) :
    ∀ dom ∈ dailyDomains data,
      (alookup ((data.foldl (updateRow date b) s)).firstSeen dom).isSome = true := by
  induction data generalizing s with
  | nil =>
    intro dom hdom
    simp [dailyDomains] at hdom
  | cons row rest ih =>
    intro dom hdom
    have hstep : dom ∈ dailyDomains rest ∨
        (∃ r0 r1 rank, row = [r0, r1] ∧ pyToInt (pyStrip r0) = some rank ∧
          pyStrip r1 = dom) := by
      unfold dailyDomains at hdom
      rw [List.filterMap_cons] at hdom
      cases hrow : (match row with
        | [r0, r1] => (pyToInt (pyStrip r0)).map (fun _ => pyStrip r1)
        | _ => none) with
      | none =>
        rw [hrow] at hdom
        exact Or.inl hdom
      | some d =>
        rw [hrow] at hdom
        rcases List.mem_cons.mp hdom with rfl | hrest
        · right
          cases row with
          | nil => simp at hrow
          | cons r0 rest2 =>
            cases rest2 with
            | nil => simp at hrow
            | cons r1 rest3 =>
              cases rest3 with
              | cons r2 rest4 => simp at hrow
              | nil =>
                dsimp only at hrow
                cases hp : pyToInt (pyStrip r0) with
                | none =>
                  rw [hp] at hrow
                  simp at hrow
                | some rank =>
                  rw [hp] at hrow
                  simp at hrow
                  exact ⟨r0, r1, rank, rfl, hp, hrow⟩
        · exact Or.inl hrest
    rcases hstep with hrest | ⟨r0, r1, rank, hrow, hp, hdome⟩
    · exact ih (updateRow date b s row) dom hrest
    · subst hrow
      have hafter : (alookup (updateRow date b s [r0, r1]).firstSeen dom).isSome = true := by
        simp only [updateRow, hp]
        by_cases hfs : (alookup s.firstSeen (pyStrip r1)).isSome = true
        · rw [if_pos hfs]
          rw [← hdome]
          exact hfs
        · rw [if_neg hfs]
          dsimp only
          rw [alookup_aset, if_pos hdome]
          rfl
      exact fold_fs_mono rest date b _ dom hafter

theorem fold_no_new (data : List (List String)) (date : Nat) (b : Bool) (s : DailyState)
    (hnd : s.newDomains = [])
    (hall : ∀ dom ∈ dailyDomains data, (alookup s.firstSeen dom).isSome = true) :
    ((data.foldl (updateRow date b) s)).newDomains = [] := by
  induction data generalizing s with
  | nil => exact hnd
  | cons row rest ih =>
    have hrow : (updateRow date b s row).newDomains = s.newDomains ∧
        (updateRow date b s row).firstSeen = s.firstSeen := by
      cases row with
      | nil => simp [updateRow]
      | cons r0 rest2 =>
        cases rest2 with
        | nil => simp [updateRow]
        | cons r1 rest3 =>
          cases rest3 with
          | cons r2 rest4 => simp [updateRow]
          | nil =>
            cases hp : pyToInt (pyStrip r0) with
            | none => simp [updateRow, hp]
            | some rank =>
              simp only [updateRow, hp]
              have hfs : (alookup s.firstSeen (pyStrip r1)).isSome = true := by
                apply hall
                unfold dailyDomains
                rw [List.filterMap_cons]
                have : (match [r0, r1] with
                    | [r0, r1] => (pyToInt (pyStrip r0)).map (fun _ => pyStrip r1)
                    | _ => none) = some (pyStrip r1) := by
                  rw [show (match [r0, r1] with
                      | [r0, r1] => (pyToInt (pyStrip r0)).map (fun _ => pyStrip r1)
                      | _ => none) = (pyToInt (pyStrip r0)).map (fun _ => pyStrip r1)
                    from rfl, hp]
                  rfl
                rw [this]
                exact List.mem_cons_self _ _
              rw [if_pos hfs]
              exact ⟨rfl, rfl⟩
    apply ih (updateRow date b s row)
    · rw [hrow.1]
      exact hnd
    · intro dom hdom
      rw [hrow.2]
      exact hall dom (by
        unfold dailyDomains at hdom ⊢
        rw [List.filterMap_cons]
        cases hm : (match row with
          | [r0, r1] => (pyToInt (pyStrip r0)).map (fun _ => pyStrip r1)
          | _ => none) with
        | none => exact hdom
        | some d => exact List.mem_cons_of_mem _ hdom)

/-- C8. New-domain detection is re-run idempotent: running the daily update
a second time over identical input rows and the store produced by the first
run yields an empty `new_domains` list, because the first run inserted
every parsed domain into `domains_first_seen`. -/
theorem update_database_rerun_no_new (data : List (List String)) (date : Nat)
    (rankings : Rankings) (firstSeen : FirstSeen) :
    (update_database data date
        (update_database data date rankings firstSeen).1.rankings
        (update_database data date rankings firstSeen).1.firstSeen).2 = [] := by
  apply fold_no_new
  · rfl
  · intro dom hdom
    exact fold_fs_all data date firstSeen.isEmpty ⟨rankings, firstSeen, [], []⟩ dom hdom

/-- Python `set.update`: append the unseen elements in order. -/
def setUnion (acc : List Nat) (ks : List Nat) : List Nat :=
  ks.foldl (fun a k => if a.contains k then a else a ++ [k]) acc

/-- The `all_dates` set collected by `save_domains_history`
(`import_historical_data_chunked.py` lines 91-93). -/
def allDates (r : Rankings) : List Nat :=
  r.foldl (fun acc p => setUnion acc (p.2.map Prod.fst)) []

/-- The dense matrix written by `save_domains_history` (lines 89-111): the
sorted list of all observed dates, and one row per domain holding
`rankings.get(date, 0)` for every date column. -/
def save_domains_history (r : Rankings) : List Nat × List (String × List Int) :=
  let ds := List.insertionSort (· ≤ ·) (allDates r)
  (ds, r.map (fun p => (p.1, ds.map (fun t => (alookup p.2 t).getD 0))))

/-- The reader `load_domains_history` (lines 49-67): for each domain row,
keep exactly the cells whose stored value is non-zero (`row[date] != 0`;
parquet integer columns are never NaN). -/
def load_domains_history (ds : List Nat) (rows : List (String × List Int)) : Rankings :=
  rows.map (fun p => (p.1, ((ds.zip p.2).filter (fun q => decide (q.2 ≠ 0)))))

theorem mem_setUnion (ks : List Nat) (acc : List Nat) (x : Nat) :
    x ∈ setUnion acc ks ↔ x ∈ acc ∨ x ∈ ks := by
  induction ks generalizing acc with
  | nil => simp [setUnion]
  | cons k rest ih =>
    show x ∈ setUnion (if acc.contains k then acc else acc ++ [k]) rest ↔ _
    rw [ih]
    by_cases hc : acc.contains k = true
    · rw [if_pos hc]
      constructor
      · rintro (h | h)
        · exact Or.inl h
        · exact Or.inr (List.mem_cons_of_mem _ h)
      · rintro (h | h)
        · exact Or.inl h
        · rcases List.mem_cons.mp h with rfl | h2
          · exact Or.inl ((contains_iff_mem _ _).mp hc)
          · exact Or.inr h2
    · rw [if_neg hc]
      constructor
      · rintro (h | h)
        · rcases List.mem_append.mp h with h2 | h2
          · exact Or.inl h2
          · exact Or.inr (by simpa using List.mem_cons.mpr (Or.inl (by simpa using h2)))
        · exact Or.inr (List.mem_cons_of_mem _ h)
      · rintro (h | h)
        · exact Or.inl (List.mem_append_left _ h)
        · rcases List.mem_cons.mp h with rfl | h2
          · exact Or.inl (List.mem_append_right _ (by simp))
          · exact Or.inr h2

theorem mem_allDates (r : Rankings) (x : Nat) :
    x ∈ allDates r ↔ ∃ p ∈ r, x ∈ p.2.map Prod.fst := by
  suffices h : ∀ acc, x ∈ r.foldl (fun acc p => setUnion acc (p.2.map Prod.fst)) acc ↔
      x ∈ acc ∨ ∃ p ∈ r, x ∈ p.2.map Prod.fst by
    have h2 := h []
    simpa [allDates] using h2
  induction r with
  | nil => simp
  | cons q rest ih =>
    intro acc
    rw [List.foldl_cons, ih, mem_setUnion]
    constructor
    · rintro ((h | h) | h)
      · exact Or.inl h
      · exact Or.inr ⟨q, by simp, h⟩
      · obtain ⟨p, hp, hx⟩ := h
        exact Or.inr ⟨p, by simp [hp], hx⟩
    · rintro (h | h)
      · exact Or.inl (Or.inl h)
      · obtain ⟨p, hp, hx⟩ := h
        rcases List.mem_cons.mp hp with rfl | h2
        · exact Or.inl (Or.inr hx)
        · exact Or.inr ⟨p, h2, hx⟩

theorem alookup_map_snd {β γ : Type} (F : β → γ) (l : List (String × β)) (a : String) :
    alookup (l.map (fun p => (p.1, F p.2))) a = (alookup l a).map F := by
  induction l with
  | nil => rfl
  | cons p rest ih =>
    obtain ⟨k, v⟩ := p
    by_cases hk : k = a
    · subst hk
      simp [alookup]
    · simp [alookup, hk, ih]

theorem zip_map_self (ds : List Nat) (f : Nat → Int) :
    ds.zip (ds.map f) = ds.map (fun t => (t, f t)) := by
  induction ds with
  | nil => rfl
  | cons u rest ih => simp [ih]

theorem alookup_filter_pairs (ds : List Nat) (f : Nat → Int) (t : Nat) :
    alookup ((ds.map (fun u => (u, f u))).filter (fun q => decide (q.2 ≠ 0))) t =
      if t ∈ ds ∧ f t ≠ 0 then some (f t) else none := by
  induction ds with
  | nil => simp [alookup]
  | cons u rest ih =>
    simp only [List.map_cons, List.filter_cons]
    by_cases hz : f u ≠ 0
    · rw [show (decide ((u, f u).2 ≠ 0)) = true by simp [hz]]
      rw [if_pos rfl, alookup_cons]
      by_cases ht : u = t
      · subst ht
        rw [if_pos rfl, if_pos ⟨by simp, hz⟩]
      · rw [if_neg ht, ih]
        by_cases hmem : t ∈ rest ∧ f t ≠ 0
        · rw [if_pos hmem, if_pos ⟨List.mem_cons_of_mem _ hmem.1, hmem.2⟩]
        · rw [if_neg hmem, if_neg (fun hq => hmem ⟨by
            rcases List.mem_cons.mp hq.1 with rfl | h2
            · exact absurd rfl ht
            · exact h2, hq.2⟩)]
    · rw [show (decide ((u, f u).2 ≠ 0)) = false by simp; omega]
      rw [if_neg Bool.false_ne_true, ih]
      have hfu : f u = 0 := by omega
      by_cases hmem : t ∈ rest ∧ f t ≠ 0
      · rw [if_pos hmem, if_pos ⟨List.mem_cons_of_mem _ hmem.1, hmem.2⟩]
      · rw [if_neg hmem, if_neg (fun hq => hmem ⟨by
          rcases List.mem_cons.mp hq.1 with rfl | h2
          · exact absurd hfu hq.2
          · exact h2, hq.2⟩)]

/-- C9. Saving then loading the rankings store preserves the domain list
(in order) and removes exactly the cells whose rank is `0`: the persisted
wide table writes `0` for missing cells and the loader discards every `0`
cell, so the sentinel `0` cells written by the merge's absent-domain step do
not survive a persistence cycle (a domain whose cells are all `0` is kept
with an empty history). -/
theorem save_load_roundtrip (r : Rankings) :
    ((load_domains_history (save_domains_history r).1 (save_domains_history r).2).map
        Prod.fst = r.map Prod.fst) ∧
    (∀ dom t,
      (alookup (load_domains_history (save_domains_history r).1 (save_domains_history r).2)
          dom).bind (fun h => alookup h t) =
        match (alookup r dom).bind (fun h => alookup h t) with
        | some v => if v = 0 then none else some v
        | none => none) := by
  constructor
  · show (((r.map _).map _).map Prod.fst) = r.map Prod.fst
    rw [List.map_map, List.map_map]
    rfl
  · intro dom t
    show ((alookup ((r.map fun p => (p.1, (List.insertionSort (· ≤ ·) (allDates r)).map
        (fun t => (alookup p.2 t).getD 0))).map
          (fun p => (p.1, (((List.insertionSort (· ≤ ·) (allDates r)).zip p.2).filter
            (fun q => decide (q.2 ≠ 0)))))) dom).bind fun h => alookup h t) = _
    rw [alookup_map_snd (fun row => List.filter (fun q => decide (q.2 ≠ 0))
          ((List.insertionSort (· ≤ ·) (allDates r)).zip row)),
      alookup_map_snd (fun h2 => List.map (fun t => (alookup h2 t).getD 0)
        (List.insertionSort (· ≤ ·) (allDates r))),
      Option.map_map]
    cases ho : alookup r dom with
    | none => rfl
    | some h =>
      show alookup (((List.insertionSort (· ≤ ·) (allDates r)).zip
          ((List.insertionSort (· ≤ ·) (allDates r)).map
            (fun u => (alookup h u).getD 0))).filter
          (fun q => decide (q.2 ≠ 0))) t =
        (match alookup h t with
         | some v => if v = 0 then none else some v
         | none => none)
      rw [zip_map_self, alookup_filter_pairs]
      cases hv : alookup h t with
      | none =>
        rw [if_neg (fun hq => hq.2 rfl)]
      | some v =>
        have htds : t ∈ List.insertionSort (· ≤ ·) (allDates r) := by
          rw [(List.perm_insertionSort _ _).mem_iff, mem_allDates]
          exact ⟨(dom, h), alookup_mem ho, List.mem_map.mpr ⟨(t, v), alookup_mem hv, rfl⟩⟩
        by_cases hvz : v = 0
        · subst hvz
          rw [if_neg (fun hq => hq.2 rfl)]
          rfl
        · rw [if_pos ⟨htds, by simpa using hvz⟩]
          show some ((some v).getD 0) = if v = 0 then none else some v
          rw [if_neg hvz]
          rfl

/-- The chunk-skip guard at the top of `process_commit_chunk`
(`import_historical_data_chunked.py` lines 192-195):
`if checkpoint['last_processed_chunk'] and int(checkpoint['last_processed_chunk']) >= chunk_id`.
Python truthiness makes both `None` and `0` falsy, so those values never
skip. -/
def chunk_skip (lastChunk : Option Int) (chunkId : Int) : Bool :=
  match lastChunk with
  | none => false
  | some v => if v ≠ 0 then decide (v ≥ chunkId) else false

/-- The per-commit skip inside the loop (lines 205-209): a commit already
in `processed_commits` is skipped individually, the others are processed. -/
def commits_to_process (chunk : List String) (processed : List String) : List String :=
  chunk.filter (fun c => !(processed.contains c))

/-- C10. `process_commit_chunk` skips its whole chunk exactly when the
checkpoint's `last_processed_chunk` is non-null, non-zero, and (as an
integer) at least the chunk id; a null or zero value (including a committed
chunk with id 0) never skips, and the chunk's already-committed snapshots
are then skipped only individually through the `processed_commits` set. -/
theorem chunk_skip_characterization (lastChunk : Option Int) (chunkId : Int) :
    (chunk_skip lastChunk chunkId = true ↔
      ∃ v, lastChunk = some v ∧ v ≠ 0 ∧ chunkId ≤ v) ∧
    (chunk_skip none chunkId = false ∧ chunk_skip (some 0) chunkId = false) ∧
    (∀ chunk processed c, c ∈ commits_to_process chunk processed ↔
      c ∈ chunk ∧ ¬ processed.contains c = true) := by
  refine ⟨?_, ⟨rfl, by simp [chunk_skip]⟩, ?_⟩
  · cases lastChunk with
    | none => simp [chunk_skip]
    | some v =>
      by_cases hv : v = 0
      · subst hv
        simp [chunk_skip]
      · simp [chunk_skip, hv, ge_iff_le]
  · intro chunk processed c
    simp [commits_to_process, List.mem_filter]

/-- Durable-write events of one `process_commit_chunk` run: a checkpoint
file write (`save_checkpoint`, carrying the `processed_commits` list and
the `last_processed_chunk` value in the dict at that moment) or a store
flush (`save_domains_history` for the chunk). -/
inductive Event where
  | saveCheckpoint (processed : List String) (lastChunk : Option Int)
  | saveHistory (chunkId : Int)
deriving DecidableEq, Repr

/-- The commit loop of `process_commit_chunk` (lines 205-266) as the
sequence of durable-write events it performs, threading `(i, processed,
total_processed)`. `availDates` collapses lines 213-248 to one
availability-and-parse test per commit date: an unavailable or failing
commit is `continue`d without being marked processed. A checkpoint write
happens after every 10th newly processed commit and at the chunk's last
position (line 256); it carries the `last_processed_chunk` value loaded at
entry, which is only reassigned at line 272, after the flush. -/
def chunkLoop (availDates : List String) (chunkLen : Nat) (lastChunk0 : Option Int) :
    List (String × String) → Nat → List String → Nat → List Event × List String
  | [], _, processed, _ => ([], processed)
  | (hash, date) :: rest, i, processed, total =>
    if processed.contains hash then
      chunkLoop availDates chunkLen lastChunk0 rest (i + 1) processed total
    else if !(availDates.contains date) then
      chunkLoop availDates chunkLen lastChunk0 rest (i + 1) processed total
    else
      let processed2 := processed ++ [hash]
      let total2 := total + 1
      let evs := if total2 % 10 = 0 ∨ i = chunkLen - 1 then
          [Event.saveCheckpoint processed2 lastChunk0] else []
      let res := chunkLoop availDates chunkLen lastChunk0 rest (i + 1) processed2 total2
      (evs ++ res.1, res.2)

/-- One run of `process_commit_chunk` (lines 183-281) as its sequence of
durable writes: nothing when the chunk-skip guard fires; otherwise the loop
events followed by the chunk flush (line 269) and the final checkpoint
write that sets `last_processed_chunk := chunk_id` (lines 272-274). -/
def process_commit_chunk_trace (chunk : List (String × String)) (chunkId : Int)
    (processed0 : List String) (lastChunk0 : Option Int) (availDates : List String) :
    List Event :=
  if chunk_skip lastChunk0 chunkId then []
  else
    (chunkLoop availDates chunk.length lastChunk0 chunk 0 processed0 0).1 ++
      [Event.saveHistory chunkId,
       Event.saveCheckpoint
         (chunkLoop availDates chunk.length lastChunk0 chunk 0 processed0 0).2
         (some chunkId)]

/-- The claim's trace property: whenever a checkpoint write lists a
snapshot that was not already committed before the run as processed, a
store flush has already happened earlier in the trace. -/
def checkpointAfterFlush (tr : List Event) (processed0 : List String) : Prop :=
  ∀ k p lc h, tr.get? k = some (Event.saveCheckpoint p lc) → h ∈ p → h ∉ processed0 →
    ∃ j, j < k ∧ ∃ cid, tr.get? j = some (Event.saveHistory cid)

/-- C4 (counterexample). In a fresh run over a one-commit chunk whose data
is available, the very first durable write is a checkpoint listing the
commit as processed — before any `save_domains_history` flush (the loop's
`i == len-1` checkpoint at line 256 precedes the flush at line 269), so a
snapshot is recorded as committed before its merged data is saved. -/
theorem checkpoint_commit_counterexample :
    ¬ checkpointAfterFlush
      (process_commit_chunk_trace [("c1", "d1")] 1 [] none ["d1"]) [] := by
  intro hc
  obtain ⟨j, hj, _, _⟩ := hc 0 ["c1"] none "c1" (by decide) (by decide) (by decide)
  omega

theorem chunkLoop_cons (availDates : List String) (chunkLen : Nat)
    (lastChunk0 : Option Int) (hash date : String) (rest : List (String × String))
    (i : Nat) (processed : List String) (total : Nat) :
    chunkLoop availDates chunkLen lastChunk0 ((hash, date) :: rest) i processed total =
      if processed.contains hash then
        chunkLoop availDates chunkLen lastChunk0 rest (i + 1) processed total
      else if !(availDates.contains date) then
        chunkLoop availDates chunkLen lastChunk0 rest (i + 1) processed total
      else
        ((if (total + 1) % 10 = 0 ∨ i = chunkLen - 1 then
            [Event.saveCheckpoint (processed ++ [hash]) lastChunk0] else []) ++
          (chunkLoop availDates chunkLen lastChunk0 rest (i + 1) (processed ++ [hash])
            (total + 1)).1,
         (chunkLoop availDates chunkLen lastChunk0 rest (i + 1) (processed ++ [hash])
            (total + 1)).2) := rfl

theorem chunkLoop_events (availDates : List String) (chunkLen : Nat)
    (lastChunk0 : Option Int) (chunk : List (String × String)) :
    ∀ i processed total,
      ∀ e ∈ (chunkLoop availDates chunkLen lastChunk0 chunk i processed total).1,
        ∃ q, e = Event.saveCheckpoint q lastChunk0 := by
  induction chunk with
  | nil =>
    intro i processed total e he
    simp [chunkLoop] at he
  | cons pr rest ih =>
    intro i processed total e he
    obtain ⟨hash, date⟩ := pr
    rw [chunkLoop_cons] at he
    by_cases h1 : processed.contains hash = true
    · rw [if_pos h1] at he
      exact ih (i + 1) processed total e he
    · rw [if_neg h1] at he
      by_cases h2 : (!(availDates.contains date)) = true
      · rw [if_pos h2] at he
        exact ih (i + 1) processed total e he
      · rw [if_neg h2] at he
        dsimp only at he
        rcases List.mem_append.mp he with hev | hrest
        · by_cases hck : (total + 1) % 10 = 0 ∨ i = chunkLen - 1
          · rw [if_pos hck] at hev
            simp at hev
            exact ⟨processed ++ [hash], hev⟩
          · rw [if_neg hck] at hev
            simp at hev
        · exact ih (i + 1) (processed ++ [hash]) (total + 1) e hrest

/-- C4 (amended). The chunk-level marker is written only after the flush:
in every non-skipped run, the trace is a list of mid-loop checkpoint writes
that all still carry the previously loaded `last_processed_chunk`, followed
by the chunk's `save_domains_history` flush and only then the checkpoint
write that sets `last_processed_chunk` to this chunk's id. The mid-loop
writes, however, record snapshots as processed before any flush (every 10
snapshots and at the chunk's last position), which the counterexample
exhibits. -/
theorem chunk_marker_after_flush (chunk : List (String × String)) (chunkId : Int)
    (processed0 : List String) (lastChunk0 : Option Int) (availDates : List String)
    (hskip : chunk_skip lastChunk0 chunkId = false) :
    ∃ evs p, process_commit_chunk_trace chunk chunkId processed0 lastChunk0 availDates =
        evs ++ [Event.saveHistory chunkId, Event.saveCheckpoint p (some chunkId)] ∧
      ∀ e ∈ evs, ∃ q, e = Event.saveCheckpoint q lastChunk0 := by
  unfold process_commit_chunk_trace
  rw [if_neg (by rw [hskip]; exact Bool.false_ne_true)]
  exact ⟨_, _, rfl, chunkLoop_events availDates chunk.length lastChunk0 chunk 0 processed0 0⟩

/-- Witness for C4's amended theorem on the counterexample's run. -/
theorem chunk_marker_after_flush_witness :
    chunk_skip none 1 = false ∧
      (∃ evs p, process_commit_chunk_trace [("c1", "d1")] 1 [] none ["d1"] =
          evs ++ [Event.saveHistory 1, Event.saveCheckpoint p (some 1)] ∧
        ∀ e ∈ evs, ∃ q, e = Event.saveCheckpoint q none) :=
  ⟨rfl, chunk_marker_after_flush [("c1", "d1")] 1 [] none ["d1"] rfl⟩

end DomainRank
